import Mathlib

/-!
Shallow embedding of the inference pipeline in `src/infer.py` of
m-shilpa/AWS_dog_breed_image_classification, together with proofs of the
specified properties of the Preprocessor (`load_image`), the Classifier
(`infer`) and the Batch Orchestrator (the loop in `main`).

Library calls made by the script (pathlib, PIL, torchvision, torch) are not
part of the repository; where one of their behaviors decides a property they
are modelled from the spec, and the corresponding definition's doc comment
says so.  Float arithmetic is modelled by exact rationals (preprocessing) and
exact reals (softmax).
-/

set_option autoImplicit false

namespace DogBreed

/-- Index of the last dot in a character list, the scan starting at position
`i`; models CPython's `str.rfind` with a dot argument over a file name. -/
def rfindDotFrom : List Char → Nat → Option Nat
  | [], _ => none
  | c :: cs, i =>
    match rfindDotFrom cs (i + 1) with
    | some j => some j
    | none => if c = '.' then some i else none

/-- Modelled from the spec: `pathlib.Path.suffix` (pathlib is library code
outside the repository) — the extension of the file name including the leading
dot, empty when the only dot is leading, trailing, or absent, as in CPython:
the slice from the last dot when `0 < i < len - 1`, else the empty string. -/
def suffixOf (name : String) : String :=
  let cs := name.toList
  match rfindDotFrom cs 0 with
  | some i => if 0 < i ∧ i < cs.length - 1 then String.mk (cs.drop i) else ""
  | none => ""

/-- Modelled from the spec: `pathlib.Path.stem` — the file name with its
`suffixOf` extension removed (the slice up to the last dot when
`0 < i < len - 1`, else the whole name). -/
def stemOf (name : String) : String :=
  let cs := name.toList
  match rfindDotFrom cs 0 with
  | some i => if 0 < i ∧ i < cs.length - 1 then String.mk (cs.take i) else name
  | none => name

/-- Modelled from the spec: `str.lower` for ASCII file extensions — every
character is lowercased. -/
def lowerStr (s : String) : String := String.mk (s.toList.map Char.toLower)

/-- The extension filter of the batch loop in `main` of `src/infer.py`:
the lowercased suffix is compared against the fixed list. -/
def isImageExt (name : String) : Bool :=
  [".jpg", ".jpeg", ".png"].contains (lowerStr (suffixOf name))

/-- Output artifact file name built in `main` of `src/infer.py` line 139:
the input stem followed by the fixed tail. -/
def outputName (f : String) : String := stemOf f ++ "_prediction.png"

/-- Output artifact path: `output_folder / name` in `main` of `src/infer.py`. -/
def outputPath (outDir f : String) : String := outDir ++ "/" ++ outputName f

/-- Per-item failures that can arise inside the batch loop body
(`load_image`, `infer`, `save_prediction_image`). -/
inductive ItemErr where
  | decodeErr
  | inferErr
  | renderErr
deriving DecidableEq

/-- Observable state of one batch run: the files handed to the per-item
pipeline, the artifact paths written, and the progress counter. -/
structure LoopState where
  invoked : List String
  outputs : List String
  counter : Nat
deriving DecidableEq

/-- Loop state before the first iteration. -/
def initState : LoopState := ⟨[], [], 0⟩

/-- The batch loop of `main` in `src/infer.py` lines 135-143.  `process`
abstracts the per-item pipeline body (`load_image`, then `infer`, then
`save_prediction_image`); there is no try/except around the body, so an
exception from it ends the whole loop, carrying the state reached so far.
The progress counter is advanced only after a successful body. -/
def runLoop {α : Type} (outDir : String) (process : String → Except ItemErr α) :
    List String → LoopState → LoopState × Option ItemErr
  | [], st => (st, none)
  | f :: fs, st =>
    if isImageExt f then
      let st1 : LoopState := { st with invoked := st.invoked ++ [f] }
      match process f with
      | .error e => (st1, some e)
      | .ok _ =>
        runLoop outDir process fs
          { st1 with
            outputs := st1.outputs ++ [outputPath outDir f],
            counter := st1.counter + 1 }
    else runLoop outDir process fs st

/-- Run-level errors of `main` in `src/infer.py`: the ValueError raised when
`cfg.ckpt_path` is None, the FileNotFoundError raised when the checkpoint file
is absent, and an uncaught per-item exception escaping the loop. -/
inductive RunErr where
  | noCkptPath
  | ckptNotFound
  | item (e : ItemErr)
deriving DecidableEq

/-- Result of one run of `main`: the loop state reached, the progress-bar
total, and the uncaught exception, if any. -/
structure RunResult where
  state : LoopState
  total : Nat
  err : Option RunErr
deriving DecidableEq

/-- `main` of `src/infer.py`: the checkpoint-path checks come first (lines
96-100, before the model is built and before any directory enumeration), then
the progress total is set to the count of all enumerated entries, then the
extension-filtered loop runs.  `fsExists` abstracts `Path.exists`, `files`
the enumeration of the input directory, `process` the per-item body. -/
def main {α : Type} (ckpt_path : Option String) (fsExists : String → Bool)
    (outDir : String) (files : List String)
    (process : String → Except ItemErr α) : RunResult :=
  match ckpt_path with
  | none => ⟨initState, 0, some RunErr.noCkptPath⟩
  | some p =>
    if fsExists p then
      let r := runLoop outDir process files initState
      ⟨r.1, files.length, r.2.map RunErr.item⟩
    else ⟨initState, 0, some RunErr.ckptNotFound⟩

/-- A per-item body whose decode step raises on `bad.jpg` and succeeds on
every other file; used to exhibit the loop's behavior on a failing item. -/
def badProcess : String → Except ItemErr Unit :=
  fun f => if f = "bad.jpg" then .error ItemErr.decodeErr else .ok ()

/-- A per-item body that always succeeds. -/
def okProcess : String → Except ItemErr Unit := fun _ => .ok ()

/-- A decoded 3-channel color raster image; pixel values are bytes 0..255,
indexed row, column, channel. -/
structure RGBImage where
  height : Nat
  width : Nat
  px : Nat → Nat → Fin 3 → Nat

/-- Modelled from the spec: a decodable source image in one of PIL's color
modes (PIL is library code outside the repository) — true color, single
channel grayscale, true color with alpha, or palette-indexed. -/
inductive RawImage where
  | rgb (img : RGBImage)
  | gray (height width : Nat) (px : Nat → Nat → Nat)
  | rgba (height width : Nat) (px : Nat → Nat → Fin 4 → Nat)
  | palette (height width : Nat) (idx : Nat → Nat → Nat) (pal : Nat → Fin 3 → Nat)

/-- Modelled from the spec: PIL's conversion of a decoded image to mode RGB —
grayscale replicates the value into all three channels, palette images look
their indices up in the palette, RGBA drops the alpha channel, RGB is kept. -/
def convertRGB : RawImage → RGBImage
  | .rgb img => img
  | .gray h w px => ⟨h, w, fun i j _ => px i j⟩
  | .rgba h w px => ⟨h, w, fun i j c => px i j c.castSucc⟩
  | .palette h w idx pal => ⟨h, w, fun i j c => pal (idx i j) c⟩

/-- The per-channel normalization means of `load_image` in `src/infer.py`. -/
def meanConsts : List ℚ := [0.485, 0.456, 0.406]

/-- The per-channel normalization standard deviations of `load_image`. -/
def stdConsts : List ℚ := [0.229, 0.224, 0.225]

/-- A numeric tensor: an explicit shape together with a total index function
(out-of-range indices read 0). -/
structure Tensor where
  shape : List Nat
  data : List Nat → ℚ

/-- Modelled from the spec: `transforms.Resize((224, 224))` — a deterministic
resize (not crop) to exactly 224×224 that samples the source pixel grid. -/
def resize224 (img : RGBImage) : RGBImage :=
  ⟨224, 224, fun i j c => img.px (i * img.height / 224) (j * img.width / 224) c⟩

/-- Modelled from the spec: `transforms.ToTensor()` — a C×H×W float tensor
with values in the unit interval obtained by dividing byte values by 255. -/
def toTensor (img : RGBImage) : Tensor :=
  ⟨[3, img.height, img.width], fun idx =>
    match idx with
    | [c, i, j] => if h : c < 3 then (img.px i j ⟨c, h⟩ : ℚ) / 255 else 0
    | _ => 0⟩

/-- Modelled from the spec: `transforms.Normalize(mean, std)` — subtracts the
per-channel mean and divides by the per-channel standard deviation along the
leading (channel) dimension. -/
def normalizeT (t : Tensor) : Tensor :=
  ⟨t.shape, fun idx =>
    match idx with
    | c :: rest => (t.data (c :: rest) - meanConsts.getD c 0) / stdConsts.getD c 1
    | [] => 0⟩

/-- `torch.Tensor.unsqueeze(0)`: adds a leading batch dimension of size 1. -/
def unsqueeze0 (t : Tensor) : Tensor :=
  ⟨1 :: t.shape, fun idx =>
    match idx with
    | b :: rest => if b = 0 then t.data rest else 0
    | [] => 0⟩

/-- `load_image` of `src/infer.py`: open the file and convert it to RGB, then
apply Resize, ToTensor, Normalize and unsqueeze(0); returns the converted
image together with the tensor. -/
def load_image (img : RawImage) : RGBImage × Tensor :=
  let rgbimg := convertRGB img
  (rgbimg, unsqueeze0 (normalizeT (toTensor (resize224 rgbimg))))

/-- The fixed 10-entry class label table of `infer` in `src/infer.py`. -/
def class_labels : List String :=
  ["Beagle", "Boxer", "Bulldog", "Dachshund", "German_Shepherd",
   "Golden_Retriever", "Labrador_Retriever", "Poodle", "Rottweiler",
   "Yorkshire_Terrier"]

/-- A loaded model: the training-mode flag that `model.eval()` clears,
together with the eval-mode forward function returning the row of raw scores
for the single batch element; float arithmetic is modelled by exact reals. -/
structure Model where
  training : Bool
  forward : Tensor → List ℝ

/-- `F.softmax(output, dim=1)` over the single score row: each score is
mapped to its exponential divided by the sum of all exponentials. -/
noncomputable def softmax (xs : List ℝ) : List ℝ :=
  xs.map fun x => Real.exp x / (xs.map Real.exp).sum

/-- Scan step for `torch.argmax`: `bi` and `bv` are the best index and value
so far, `i` the index of the list head; a strictly larger value wins, so ties
keep the lowest index. -/
def argmaxGo {α : Type} [LinearOrder α] (bi : Nat) (bv : α) (i : Nat) :
    List α → Nat
  | [] => bi
  | x :: xs => if bv < x then argmaxGo i x (i + 1) xs else argmaxGo bi bv (i + 1) xs

/-- `torch.argmax` over one row: the first index of the maximal element. -/
def argmaxIdx {α : Type} [LinearOrder α] : List α → Nat
  | [] => 0
  | x :: xs => argmaxGo 0 x 1 xs

/-- `infer` of `src/infer.py`: `model.eval()`; forward pass under no_grad;
softmax along the class dimension; argmax; label lookup in `class_labels`
(Python raises IndexError past the table's end, and `torch.argmax` raises on
an empty score row); the confidence read at the predicted index.  The updated
model (training flag cleared) is returned to make the state change explicit. -/
noncomputable def infer (m : Model) (t : Tensor) :
    Except String ((String × ℝ) × Model) :=
  let m' : Model := { m with training := false }
  let output := m'.forward t
  let probabilities := softmax output
  if output.isEmpty then
    .error "RuntimeError: argmax on an empty dimension"
  else
    let predicted_class := argmaxIdx probabilities
    match class_labels.get? predicted_class with
    | none => .error "IndexError: list index out of range"
    | some predicted_label =>
      .ok ((predicted_label, probabilities.getD predicted_class 0), m')

/-- A trivial tensor input for concrete evaluations. -/
def t0 : Tensor := ⟨[], fun _ => 0⟩

/-- A model returning ten equal scores; its output row matches the table. -/
noncomputable def model10 : Model := ⟨true, fun _ => List.replicate 10 0⟩

/-- A model returning nine equal scores; its output row is shorter than the
10-entry class label table. -/
noncomputable def model9 : Model := ⟨true, fun _ => List.replicate 9 0⟩

/-- A uniform gray source image: every pixel of every channel has byte value
128. -/
def grayImage : RawImage := RawImage.rgb ⟨224, 224, fun _ _ _ => 128⟩

/-- When every kept entry is processed successfully, the loop visits the whole
list: it invokes exactly the kept entries in order, writes one artifact per
kept entry, advances the counter once per kept entry, and raises nothing. -/
theorem runLoop_ok {α : Type} (outDir : String)
    (process : String → Except ItemErr α) (files : List String) (st : LoopState)
    (h : ∀ f ∈ files, isImageExt f → ∃ a, process f = .ok a) :
    runLoop outDir process files st =
      ({ invoked := st.invoked ++ files.filter isImageExt,
         outputs := st.outputs ++ (files.filter isImageExt).map (outputPath outDir),
         counter := st.counter + (files.filter isImageExt).length }, none) := by
  induction files generalizing st with
  | nil => simp [runLoop]
  | cons f fs ih =>
    by_cases hf : isImageExt f
    · obtain ⟨a, ha⟩ := h f (List.mem_cons_self f fs) hf
      rw [runLoop, if_pos hf, ha]
      dsimp only
      rw [ih _ (fun g hg hgi => h g (List.mem_cons_of_mem f hg) hgi)]
      simp only [List.filter_cons, hf, if_pos, List.map_cons, List.length_cons]
      refine congrArg (fun s => (s, none)) ?_
      simp only [LoopState.mk.injEq]
      refine ⟨by simp, by simp, by omega⟩
    · rw [runLoop, if_neg hf, ih _ (fun g hg hgi => h g (List.mem_cons_of_mem f hg) hgi)]
      simp [List.filter_cons, hf]

/-- Any file the loop ever invokes was either already invoked in the starting
state or is a list entry passing the extension filter. -/
theorem runLoop_invoked_mem {α : Type} (outDir : String)
    (process : String → Except ItemErr α) (files : List String) (st : LoopState)
    (f : String) (hf : f ∈ (runLoop outDir process files st).1.invoked) :
    f ∈ st.invoked ∨ (f ∈ files ∧ isImageExt f = true) := by
  induction files generalizing st with
  | nil =>
    rw [runLoop] at hf
    exact Or.inl hf
  | cons g fs ih =>
    rw [runLoop] at hf
    by_cases hg : isImageExt g
    · rw [if_pos hg] at hf
      cases hp : process g with
      | error e =>
        rw [hp] at hf
        simp only [List.mem_append, List.mem_singleton] at hf
        rcases hf with hf | rfl
        · exact Or.inl hf
        · exact Or.inr ⟨List.mem_cons_self f fs, hg⟩
      | ok a =>
        rw [hp] at hf
        rcases ih _ hf with hmem | ⟨hmem, hext⟩
        · simp only [List.mem_append, List.mem_singleton] at hmem
          rcases hmem with hmem | rfl
          · exact Or.inl hmem
          · exact Or.inr ⟨List.mem_cons_self f fs, hg⟩
        · exact Or.inr ⟨List.mem_cons_of_mem g hmem, hext⟩
    · rw [if_neg hg] at hf
      rcases ih _ hf with hmem | ⟨hmem, hext⟩
      · exact Or.inl hmem
      · exact Or.inr ⟨List.mem_cons_of_mem g hmem, hext⟩

/-- A list with at least one entry failing the predicate filters to a strictly
shorter list. -/
theorem length_filter_lt_of_mem_not {α : Type} (l : List α) (p : α → Bool)
    (hx : ∃ f ∈ l, p f = false) : (l.filter p).length < l.length := by
  induction l with
  | nil => simp at hx
  | cons a t ih =>
    obtain ⟨f, hf, hpf⟩ := hx
    rcases List.mem_cons.mp hf with rfl | hft
    · have hle := List.length_filter_le p t
      simp only [List.filter_cons, hpf, List.length_cons]
      rw [if_neg (by simp)]
      omega
    · by_cases hpa : p a
      · simpa [List.filter_cons, hpa] using ih ⟨f, hft, hpf⟩
      · have hle := List.length_filter_le p t
        simp only [List.filter_cons, List.length_cons]
        rw [if_neg (by simpa using hpa)]
        omega

/-- C1: the claim says a failure processing one file does not abort the batch.
The code has no try/except around the loop body, so it does: with entries
`bad.jpg` and `good.jpg` where decoding `bad.jpg` raises, the run ends with
the uncaught per-item error, `good.jpg` is never handed to the pipeline, the
counter stays 0 and no artifact is written. -/
theorem batch_aborts_on_item_failure :
    main (some "model.ckpt") (fun _ => true) "output" ["bad.jpg", "good.jpg"]
        badProcess =
      ⟨⟨["bad.jpg"], [], 0⟩, 2, some (RunErr.item ItemErr.decodeErr)⟩ := by
  decide

/-- C4: a missing (None) or non-existent checkpoint path makes the run fail
with the corresponding configuration-level error before any file is touched:
for every file list and every per-item pipeline the loop state stays initial,
so no file is invoked and no artifact is written. -/
theorem ckpt_checks_precede_processing {α : Type} (ckpt_path : Option String)
    (fsExists : String → Bool)
    (h : ckpt_path = none ∨ ∃ p, ckpt_path = some p ∧ fsExists p = false) :
    ∀ (outDir : String) (files : List String)
      (process : String → Except ItemErr α),
      (main ckpt_path fsExists outDir files process).state = initState ∧
        initState.invoked = [] ∧ initState.outputs = [] ∧
        ((main ckpt_path fsExists outDir files process).err =
            some RunErr.noCkptPath ∨
          (main ckpt_path fsExists outDir files process).err =
            some RunErr.ckptNotFound) := by
  intro outDir files process
  rcases h with rfl | ⟨p, rfl, hp⟩
  · exact ⟨rfl, rfl, rfl, Or.inl rfl⟩
  · rw [main, if_neg (by simp [hp])]
    exact ⟨rfl, rfl, rfl, Or.inr rfl⟩

/-- Witness for C4 at the concrete input of a None checkpoint path. -/
theorem ckpt_checks_precede_processing_witness :
    ((none : Option String) = none ∨
        ∃ p, (none : Option String) = some p ∧ (fun _ : String => true) p = false) ∧
      ∀ (outDir : String) (files : List String)
        (process : String → Except ItemErr Unit),
        (main none (fun _ : String => true) outDir files process).state = initState ∧
          initState.invoked = [] ∧ initState.outputs = [] ∧
          ((main none (fun _ : String => true) outDir files process).err =
              some RunErr.noCkptPath ∨
            (main none (fun _ : String => true) outDir files process).err =
              some RunErr.ckptNotFound) :=
  ⟨Or.inl rfl,
    ckpt_checks_precede_processing none (fun _ : String => true) (Or.inl rfl)⟩

/-- C6: when every kept entry is processed successfully, the loop hands
exactly the entries whose extension is .jpg, .jpeg or .png (compared
case-insensitively) to the pipeline, in enumeration order; and regardless of
outcomes and of the pipeline body, an entry with any other extension is never
handed to it. -/
theorem extension_filter_exact {α : Type} (outDir : String)
    (files : List String) (process : String → Except ItemErr α)
    (h : ∀ f ∈ files, isImageExt f → ∃ a, process f = .ok a) :
    (runLoop outDir process files initState).1.invoked =
        files.filter isImageExt ∧
      ∀ (β : Type) (q : String → Except ItemErr β) (g : String),
        g ∈ (runLoop outDir q files initState).1.invoked →
          isImageExt g = true := by
  constructor
  · rw [runLoop_ok outDir process files initState h]
    simp [initState]
  · intro β q g hg
    rcases runLoop_invoked_mem outDir q files initState g hg with h1 | h2
    · simp [initState] at h1
    · exact h2.2

/-- Witness for C6 on the directory listing dog1.jpg and readme.txt with an
always-succeeding pipeline body. -/
theorem extension_filter_exact_witness :
    (∀ f ∈ ["dog1.jpg", "readme.txt"], isImageExt f →
        ∃ a, okProcess f = .ok a) ∧
      ((runLoop "output" okProcess ["dog1.jpg", "readme.txt"] initState).1.invoked =
          ["dog1.jpg", "readme.txt"].filter isImageExt ∧
        ∀ (β : Type) (q : String → Except ItemErr β) (g : String),
          g ∈ (runLoop "output" q ["dog1.jpg", "readme.txt"] initState).1.invoked →
            isImageExt g = true) :=
  ⟨fun _ _ _ => ⟨(), rfl⟩,
    extension_filter_exact "output" ["dog1.jpg", "readme.txt"] okProcess
      (fun _ _ _ => ⟨(), rfl⟩)⟩

/-- C7: when every kept entry is processed successfully, the artifacts
written are exactly `outDir/<stem>_prediction.png` for the kept entries in
order; in particular the input `dog1.jpg` yields `output/dog1_prediction.png`
in the output directory. -/
theorem output_artifact_naming {α : Type} (outDir : String)
    (files : List String) (process : String → Except ItemErr α)
    (h : ∀ f ∈ files, isImageExt f → ∃ a, process f = .ok a) :
    (runLoop outDir process files initState).1.outputs =
        (files.filter isImageExt).map (outputPath outDir) ∧
      outputPath "output" "dog1.jpg" = "output/dog1_prediction.png" := by
  refine ⟨?_, by decide⟩
  rw [runLoop_ok outDir process files initState h]
  simp [initState]

/-- Witness for C7 on the directory listing dog1.jpg and readme.txt with an
always-succeeding pipeline body. -/
theorem output_artifact_naming_witness :
    (∀ f ∈ ["dog1.jpg", "readme.txt"], isImageExt f →
        ∃ a, okProcess f = .ok a) ∧
      ((runLoop "output" okProcess ["dog1.jpg", "readme.txt"] initState).1.outputs =
          (["dog1.jpg", "readme.txt"].filter isImageExt).map (outputPath "output") ∧
        outputPath "output" "dog1.jpg" = "output/dog1_prediction.png") :=
  ⟨fun _ _ _ => ⟨(), rfl⟩,
    output_artifact_naming "output" ["dog1.jpg", "readme.txt"] okProcess
      (fun _ _ _ => ⟨(), rfl⟩)⟩

/-- C9: the progress total is the count of all enumerated entries, while the
counter advances only for entries passing the extension filter, so whenever
the input directory holds at least one entry with a different extension the
final counter stays strictly below the declared total, even though every kept
file succeeds. -/
theorem progress_counter_below_total {α : Type} (p outDir : String)
    (fsExists : String → Bool) (files : List String)
    (process : String → Except ItemErr α)
    (hp : fsExists p = true)
    (h : ∀ f ∈ files, isImageExt f → ∃ a, process f = .ok a)
    (hx : ∃ f ∈ files, isImageExt f = false) :
    (main (some p) fsExists outDir files process).state.counter <
      (main (some p) fsExists outDir files process).total := by
  rw [main, if_pos hp]
  rw [runLoop_ok outDir process files initState h]
  simpa [initState] using length_filter_lt_of_mem_not files isImageExt hx

/-- Witness for C9 on the directory listing dog1.jpg and readme.txt. -/
theorem progress_counter_below_total_witness :
    ((fun _ : String => true) "model.ckpt" = true ∧
        (∀ f ∈ ["dog1.jpg", "readme.txt"], isImageExt f →
          ∃ a, okProcess f = .ok a) ∧
        ∃ f ∈ ["dog1.jpg", "readme.txt"], isImageExt f = false) ∧
      (main (some "model.ckpt") (fun _ : String => true) "output"
            ["dog1.jpg", "readme.txt"] okProcess).state.counter <
        (main (some "model.ckpt") (fun _ : String => true) "output"
            ["dog1.jpg", "readme.txt"] okProcess).total :=
  ⟨⟨rfl, fun _ _ _ => ⟨(), rfl⟩, "readme.txt", by decide⟩,
    progress_counter_below_total "model.ckpt" "output" (fun _ : String => true)
      ["dog1.jpg", "readme.txt"] okProcess rfl (fun _ _ _ => ⟨(), rfl⟩)
      ⟨"readme.txt", by decide⟩⟩

/-- C2: for every decodable image the preprocessed tensor has fixed shape
1×3×224×224, its in-range entries satisfy the per-channel normalization of
the resized unit-interval pixel values with the fixed mean/std constants, and
a uniform gray source of byte value 128 gives, per channel, the constant
(128/255 − mean_c)/std_c. -/
theorem preprocess_normalization (img : RawImage) (c i j : Nat) (hc : c < 3)
    (_hi : i < 224) (_hj : j < 224) :
    (load_image img).2.shape = [1, 3, 224, 224] ∧
      (load_image img).2.data [0, c, i, j] =
        (((resize224 (convertRGB img)).px i j ⟨c, hc⟩ : ℚ) / 255 -
            meanConsts.getD c 0) / stdConsts.getD c 1 ∧
      ∀ (h w : Nat) (px0 : Nat → Nat → Fin 3 → Nat),
        img = RawImage.rgb ⟨h, w, px0⟩ → (∀ a b d, px0 a b d = 128) →
        (load_image img).2.data [0, c, i, j] =
          ((128 : ℚ) / 255 - meanConsts.getD c 0) / stdConsts.getD c 1 := by
  refine ⟨rfl, ?_, ?_⟩
  · simp [load_image, unsqueeze0, normalizeT, toTensor, hc]
  · rintro h w px0 rfl hpx
    simp [load_image, unsqueeze0, normalizeT, toTensor, resize224, convertRGB,
      hc, hpx]

/-- Witness for C2 at the uniform gray 224×224 image and index (0,0,0,0). -/
theorem preprocess_normalization_witness :
    ((0 : Nat) < 3 ∧ (0 : Nat) < 224 ∧ (0 : Nat) < 224) ∧
      ((load_image grayImage).2.shape = [1, 3, 224, 224] ∧
        (load_image grayImage).2.data [0, 0, 0, 0] =
          (((resize224 (convertRGB grayImage)).px 0 0 ⟨0, by decide⟩ : ℚ) / 255 -
              meanConsts.getD 0 0) / stdConsts.getD 0 1 ∧
        ∀ (h w : Nat) (px0 : Nat → Nat → Fin 3 → Nat),
          grayImage = RawImage.rgb ⟨h, w, px0⟩ → (∀ a b d, px0 a b d = 128) →
          (load_image grayImage).2.data [0, 0, 0, 0] =
            ((128 : ℚ) / 255 - meanConsts.getD 0 0) / stdConsts.getD 0 1) :=
  ⟨⟨by decide, by decide, by decide⟩,
    preprocess_normalization grayImage 0 0 0 (by decide) (by decide) (by decide)⟩

/-- C10: whatever its color mode — grayscale, RGBA, palette or RGB — every
decodable source is converted to RGB before the transform, so preprocessing
never fails and always yields a 1×3×224×224 tensor; a grayscale source has
its single value replicated into all three channels. -/
theorem convert_rgb_all_modes (h w : Nat) (gpx : Nat → Nat → Nat)
    (apx : Nat → Nat → Fin 4 → Nat) (pidx : Nat → Nat → Nat)
    (pal : Nat → Fin 3 → Nat) (img : RGBImage) :
    (load_image (RawImage.gray h w gpx)).2.shape = [1, 3, 224, 224] ∧
      (load_image (RawImage.rgba h w apx)).2.shape = [1, 3, 224, 224] ∧
      (load_image (RawImage.palette h w pidx pal)).2.shape = [1, 3, 224, 224] ∧
      (load_image (RawImage.rgb img)).2.shape = [1, 3, 224, 224] ∧
      ∀ (i j : Nat) (c : Fin 3),
        (convertRGB (RawImage.gray h w gpx)).px i j c = gpx i j :=
  ⟨rfl, rfl, rfl, rfl, fun _ _ _ => rfl⟩

/-- Softmax preserves the length of the score row. -/
theorem softmax_length (xs : List ℝ) : (softmax xs).length = xs.length := by
  simp [softmax]

/-- The sum of the exponentials of a nonempty score row is positive. -/
theorem sum_map_exp_pos (xs : List ℝ) (h : xs ≠ []) :
    0 < (xs.map Real.exp).sum := by
  cases xs with
  | nil => exact absurd rfl h
  | cons x t =>
    have ht : 0 ≤ (t.map Real.exp).sum :=
      List.sum_nonneg fun y hy => by
        obtain ⟨z, _, rfl⟩ := List.mem_map.mp hy
        exact (Real.exp_pos z).le
    calc (0:ℝ) < Real.exp x := Real.exp_pos x
    _ ≤ Real.exp x + (t.map Real.exp).sum := le_add_of_nonneg_right ht
    _ = ((x :: t).map Real.exp).sum := by simp

/-- The softmax of a nonempty score row sums to exactly 1. -/
theorem softmax_sum (xs : List ℝ) (h : xs ≠ []) : (softmax xs).sum = 1 := by
  have hS : (xs.map Real.exp).sum ≠ 0 := ne_of_gt (sum_map_exp_pos xs h)
  unfold softmax
  have hfun : (fun x => Real.exp x / (xs.map Real.exp).sum) =
      fun x => Real.exp x * ((xs.map Real.exp).sum)⁻¹ := by
    funext x; rw [div_eq_mul_inv]
  rw [hfun, List.sum_map_mul_right, mul_inv_cancel₀ hS]

/-- Every softmax entry lies in the unit interval. -/
theorem softmax_mem_bounds (xs : List ℝ) (p : ℝ) (hp : p ∈ softmax xs) :
    0 ≤ p ∧ p ≤ 1 := by
  unfold softmax at hp
  obtain ⟨x, hx, rfl⟩ := List.mem_map.mp hp
  have hne : xs ≠ [] := by rintro rfl; simp at hx
  have hS : 0 < (xs.map Real.exp).sum := sum_map_exp_pos xs hne
  refine ⟨le_of_lt (div_pos (Real.exp_pos x) hS), ?_⟩
  rw [div_le_one hS]
  refine List.single_le_sum (fun y hy => ?_) _ (List.mem_map_of_mem Real.exp hx)
  obtain ⟨z, _, rfl⟩ := List.mem_map.mp hy
  exact (Real.exp_pos z).le

/-- The argmax scan never leaves the index range: starting strictly below the
head position, the result stays below the position past the last element. -/
theorem argmaxGo_lt {α : Type} [LinearOrder α] (xs : List α) :
    ∀ (bi i : Nat) (bv : α), bi < i → argmaxGo bi bv i xs < i + xs.length := by
  induction xs with
  | nil => intro bi i bv h; simpa [argmaxGo] using h
  | cons x t ih =>
    intro bi i bv h
    simp only [argmaxGo, List.length_cons]
    split
    · have := ih i (i + 1) x (Nat.lt_succ_self i)
      omega
    · have := ih bi (i + 1) bv (h.trans (Nat.lt_succ_self i))
      omega

/-- The argmax of a nonempty row is a valid index into it. -/
theorem argmaxIdx_lt {α : Type} [LinearOrder α] (xs : List α) (h : xs ≠ []) :
    argmaxIdx xs < xs.length := by
  match xs with
  | x :: t =>
    have := argmaxGo_lt t 0 1 x Nat.zero_lt_one
    simpa [argmaxIdx, Nat.add_comm] using this

/-- On a constant row the scan never improves, keeping its starting index. -/
theorem argmaxGo_replicate {α : Type} [LinearOrder α] (n : Nat) (c : α) :
    ∀ (bi i : Nat), argmaxGo bi c i (List.replicate n c) = bi := by
  induction n with
  | zero => intro bi i; rfl
  | succ k ih =>
    intro bi i
    rw [List.replicate_succ]
    simp only [argmaxGo, lt_irrefl, if_neg (lt_irrefl c)]
    exact ih bi (i + 1)

/-- The argmax of a nonempty constant row is 0 (lowest-index tie break). -/
theorem argmaxIdx_replicate {α : Type} [LinearOrder α] (n : Nat) (c : α) :
    argmaxIdx (List.replicate (n + 1) c) = 0 := by
  rw [List.replicate_succ]
  simp only [argmaxIdx]
  exact argmaxGo_replicate n c 0 1

/-- The softmax of a constant row is the uniform distribution. -/
theorem softmax_replicate (n : Nat) (x : ℝ) :
    softmax (List.replicate n x) = List.replicate n (1 / (n : ℝ)) := by
  unfold softmax
  rw [List.map_replicate, List.map_replicate, List.sum_replicate, nsmul_eq_mul]
  congr 1
  rw [mul_comm, ← div_div, div_self (Real.exp_ne_zero x)]

/-- Concrete evaluation of `infer` on a model whose score row is constant at
0 with n+1 entries: the first label is returned with confidence 1/(n+1). -/
theorem infer_const (m : Model) (t : Tensor) (n : Nat)
    (hf : m.forward t = List.replicate (n + 1) (0:ℝ)) :
    infer m t =
      .ok ((class_labels.getD 0 "", 1 / ((n + 1 : Nat) : ℝ)),
        { m with training := false }) := by
  simp only [infer, hf]
  rw [softmax_replicate, argmaxIdx_replicate]
  simp [class_labels, List.replicate_succ]

/-- C5: the claim says a model whose output length differs from the 10-entry
table fails with ShapeMismatchError.  The code has no such validation: a model
with a 9-score output row is classified without any error, silently returning
the label at the argmax index with its softmax confidence. -/
theorem no_shape_validation :
    infer model9 t0 =
      .ok (("Beagle", 1 / ((9 : Nat) : ℝ)), { model9 with training := false }) := by
  have h := infer_const model9 t0 8 rfl
  simpa [class_labels] using h

/-- C3: for every model whose output row has the table's length, `infer`
returns a label from the 10-entry table with a confidence in the unit
interval, the softmax probability row it computes sums to exactly 1, and the
label is the table entry at the argmax index. -/
theorem classifier_output_contract (m : Model) (t : Tensor)
    (h : (m.forward t).length = 10) :
    ∃ (lbl : String) (conf : ℝ),
      infer m t = .ok ((lbl, conf), { m with training := false }) ∧
        lbl ∈ class_labels ∧ 0 ≤ conf ∧ conf ≤ 1 ∧
        (softmax (m.forward t)).sum = 1 ∧
        class_labels.get? (argmaxIdx (softmax (m.forward t))) = some lbl := by
  have hne : m.forward t ≠ [] := by
    intro heq; rw [heq] at h; simp at h
  have hpne : softmax (m.forward t) ≠ [] := by
    intro heq
    have hl := softmax_length (m.forward t)
    rw [heq, h] at hl
    simp at hl
  have hklt : argmaxIdx (softmax (m.forward t)) < class_labels.length := by
    have h1 := argmaxIdx_lt (softmax (m.forward t)) hpne
    rw [softmax_length, h] at h1
    simpa [class_labels] using h1
  have hkp : argmaxIdx (softmax (m.forward t)) < (softmax (m.forward t)).length := by
    rw [softmax_length, h]
    simpa [class_labels] using hklt
  have hget := List.get?_eq_get hklt
  have hconf : (softmax (m.forward t)).getD (argmaxIdx (softmax (m.forward t))) 0 =
      (softmax (m.forward t)).get ⟨argmaxIdx (softmax (m.forward t)), hkp⟩ := by
    rw [List.getD_eq_getElem?_getD, List.getElem?_eq_getElem hkp]
    rfl
  have hemp : (m.forward t).isEmpty = false := by
    simpa using hne
  have hbounds := softmax_mem_bounds (m.forward t)
    ((softmax (m.forward t)).get ⟨argmaxIdx (softmax (m.forward t)), hkp⟩)
    (List.get_mem _ _ _)
  refine ⟨class_labels.get ⟨argmaxIdx (softmax (m.forward t)), hklt⟩,
    (softmax (m.forward t)).getD (argmaxIdx (softmax (m.forward t))) 0,
    ?_, List.get_mem _ _ _, ?_, ?_, softmax_sum _ hne, hget⟩
  · simp only [infer, hemp, hget]
    simp
  · rw [hconf]; exact hbounds.1
  · rw [hconf]; exact hbounds.2

/-- Witness for C3 at a model with a constant all-zero 10-score output. -/
theorem classifier_output_contract_witness :
    (model10.forward t0).length = 10 ∧
      ∃ (lbl : String) (conf : ℝ),
        infer model10 t0 = .ok ((lbl, conf), { model10 with training := false }) ∧
          lbl ∈ class_labels ∧ 0 ≤ conf ∧ conf ≤ 1 ∧
          (softmax (model10.forward t0)).sum = 1 ∧
          class_labels.get? (argmaxIdx (softmax (model10.forward t0))) = some lbl :=
  ⟨by simp [model10], classifier_output_contract model10 t0 (by simp [model10])⟩

/-- C8: `infer` is a deterministic, side-effect-free function of the model and
the tensor: its only state change is clearing the training flag, so running it
again on the model it returned yields the identical (label, confidence) pair
and the identical model. -/
theorem classifier_idempotent (m : Model) (t : Tensor)
    (r : (String × ℝ) × Model) (h : infer m t = .ok r) :
    infer r.2 t = .ok r := by
  by_cases hemp : (m.forward t).isEmpty
  · simp only [infer, hemp] at h
    simp at h
  · rw [Bool.not_eq_true] at hemp
    cases hget : class_labels.get? (argmaxIdx (softmax (m.forward t))) with
    | none =>
      simp only [infer, hemp, hget] at h
      simp at h
    | some lbl =>
      simp only [infer, hemp, hget] at h
      have hr : r = ((lbl, (softmax (m.forward t)).getD
          (argmaxIdx (softmax (m.forward t))) 0), { m with training := false }) := by
        simpa using h.symm
      subst hr
      simp only [infer, hemp, hget]
      simp

/-- Witness for C8: the first run on the constant 10-score model, then the
second run on the model the first one returned, with identical results. -/
theorem classifier_idempotent_witness :
    infer model10 t0 =
        .ok (("Beagle", 1 / ((10 : Nat) : ℝ)), { model10 with training := false }) ∧
      infer ({ model10 with training := false }) t0 =
        .ok (("Beagle", 1 / ((10 : Nat) : ℝ)), { model10 with training := false }) :=
  have h1 : infer model10 t0 =
      .ok (("Beagle", 1 / ((10 : Nat) : ℝ)), { model10 with training := false }) := by
    have h := infer_const model10 t0 9 rfl
    simpa [class_labels] using h
  ⟨h1, classifier_idempotent model10 t0
    (("Beagle", 1 / ((10 : Nat) : ℝ)), { model10 with training := false }) h1⟩

end DogBreed
